import Mathlib

/-!
Shallow embedding of the order-estimation and fee-distribution core of the
Verto SDK (src/common/exchange.ts and src/utils.ts).

Modelling conventions:
* JavaScript numbers are modelled as exact rationals (`ℚ`).  The only NaN
  the specified properties exercise is the `0/0` produced by averaging an
  empty price list; it is modelled explicitly by the `JSNum` type, whose
  `nan` constructor propagates through multiplication exactly as IEEE NaN
  does.  Division of a nonzero rational by zero (JS `Infinity`) is outside
  every stated property (all of them assume the divisor is nonzero at each
  division site) and is left at `ℚ`'s convention `x / 0 = 0`.
* `async` control flow is modelled by passing the collaborator responses
  (the fetched order book, the fetched contract state, the uniform random
  draw) as explicit arguments, and by recording the external calls a
  function performs in an explicit `calls` trace.
* JavaScript objects iterated with `Object.keys` are modelled as
  association lists in insertion order; updating an existing key keeps its
  position and adding a new key appends, exactly as JS string-keyed
  objects behave.
-/

/-- JavaScript runtime value, as far as `validateHash` inspects it:
it only distinguishes strings from every other value. -/
inductive JsVal where
  | str : String → JsVal
  | num : ℚ → JsVal
  | boolean : Bool → JsVal
  | nullV : JsVal
  | undef : JsVal
deriving DecidableEq

/-- Whether a `JsVal` is a string (the `typeof hash !== "string"` test). -/
def JsVal.isString : JsVal → Bool
  | .str _ => true
  | _ => false

/-- Character class `[a-z0-9_-]` of the regex `/^[a-z0-9_-]{43}$/i`; the
`i` flag extends the letter range to upper case (for ASCII input the
non-Unicode canonicalisation does nothing else). -/
def isHashChar (c : Char) : Bool :=
  (('a' ≤ c) && (c ≤ 'z')) || (('A' ≤ c) && (c ≤ 'Z')) ||
    (('0' ≤ c) && (c ≤ '9')) || (c == '_') || (c == '-')

/-- Matcher for the anchored repetition `^[class]{n}$`: the input must
consist of exactly `n` characters of the class and nothing else. -/
def matchClassN : Nat → List Char → Bool
  | 0, [] => true
  | 0, _ :: _ => false
  | _ + 1, [] => false
  | n + 1, c :: cs => isHashChar c && matchClassN n cs

/-- Embedding of `/^[a-z0-9_-]{43}$/i.test(hash)` on an actual string
(`Utils.validateHash`, src/utils.ts:152-155). -/
def validateHashStr (s : String) : Bool :=
  matchClassN 43 s.toList

/-- Embedding of `Utils.validateHash`: the `typeof` guard rejects every
non-string value, then the regex test runs on the string. -/
def validateHash : JsVal → Bool
  | .str s => validateHashStr s
  | _ => false

/-- JavaScript number that may be NaN.  Multiplication with NaN yields
NaN, as in IEEE arithmetic. -/
inductive JSNum where
  | nan : JSNum
  | num : ℚ → JSNum
deriving DecidableEq

/-- Multiplication on `JSNum`; any NaN operand makes the result NaN. -/
def jmul : JSNum → JSNum → JSNum
  | .num a, .num b => .num (a * b)
  | _, _ => .nan

/-- JavaScript `price || avgPrice`: a present *and nonzero* limit price is
used, otherwise (absent or `0`, both falsy) the average price. -/
def jsOr (price : Option ℚ) (avg : JSNum) : JSNum :=
  match price with
  | some p => if p = 0 then avg else .num p
  | none => avg

/-- Resting order as the estimator consumes it (fields of
`OrderInterfaceWithPair` that `estimateSwap` reads). -/
structure Order where
  id : String
  token : String
  price : ℚ
  quantity : ℚ
deriving DecidableEq

/-- Swap pair argument (`SwapPairInterface`). -/
structure SwapPair where
  «from» : String
  «to» : String
deriving DecidableEq

/-- Result of `estimateSwap`: the immediately received amount and the
optional remainder estimate. -/
structure Estimate where
  immediate : ℚ
  rest : Option JSNum
deriving DecidableEq

/-- Decidable equality for `Except`, needed to evaluate concrete results. -/
instance {α : Type} [DecidableEq α] : DecidableEq (Except String α) := fun a b =>
  match a, b with
  | .ok x, .ok y => if h : x = y then .isTrue (by rw [h]) else .isFalse (by simp [h])
  | .error x, .error y => if h : x = y then .isTrue (by rw [h]) else .isFalse (by simp [h])
  | .ok _, .error _ => .isFalse (by simp)
  | .error _, .ok _ => .isFalse (by simp)

/-- Result of an effectful SDK entry point together with the trace of
external collaborator calls it performed before returning. -/
structure Traced (α : Type) where
  calls : List String
  result : Except String α
deriving DecidableEq

/-- JavaScript `list.reduce((a, b) => a + b, 0)`. -/
def sumQ (l : List ℚ) : ℚ :=
  l.foldl (· + ·) 0

/-- Orders the swap would match against: every order of the fetched pair
book whose `token` is not the `from` side
(`pairOrderbook.filter((order) => pair.from !== order.token)`). -/
def reverseOrders (book : List Order) (p : SwapPair) : List Order :=
  book.filter (fun o => !(p.«from» == o.token))

/-- Prices of the same-direction orders: book entries whose id does not
occur among the reverse orders
(`pairOrderbook.filter((order) => !reverseOrders.find(({id}) => order.id === id))`). -/
def sameDirPrices (book rev : List Order) : List ℚ :=
  (book.filter (fun o => !(rev.any (fun r2 => o.id == r2.id)))).map (·.price)

/-- Average same-direction price
(`allPrices.reduce((a, b) => a + b, 0) / allPrices.length`); an empty
price list gives JS `0 / 0 = NaN`. -/
def avgPrice (book rev : List Order) : JSNum :=
  let ps := sameDirPrices book rev
  if ps.isEmpty then .nan else .num (sumQ ps / (ps.length : ℚ))

/-- Skip test of the walk (`if (price && order.price !== price) continue`):
a truthy (present, nonzero) limit price skips orders at a different price. -/
def skipOrder (price : Option ℚ) (o : Order) : Bool :=
  match price with
  | some p => decide (p ≠ 0) && decide (o.price ≠ p)
  | none => false

/-- The estimator's order-book walk (the `for` loop of `estimateSwap`,
src/common/exchange.ts:331-358), carrying `immediate` and
`remainingQuantity`; returns their final values. -/
def walk (price : Option ℚ) : List Order → ℚ → ℚ → ℚ × ℚ
  | [], rem, imm => (imm, rem)
  | o :: os, rem, imm =>
    if rem ≤ 0 then (imm, rem)
    else if skipOrder price o then walk price os rem imm
    else if rem * (price.getD (1 / o.price)) ≤ o.quantity then
      (imm + rem * (1 / o.price), 0)
    else walk price os (rem - o.quantity * o.price) (imm + o.quantity)

/-- Pure part of `estimateSwap` after the order book has been fetched:
run the walk, then compute `rest` from the remaining quantity and
`price || avgPrice`. -/
def estimateCore (book : List Order) (p : SwapPair) (amount : ℚ)
    (price : Option ℚ) : Estimate where
  immediate := (walk price (reverseOrders book p) amount 0).1
  rest :=
    if 0 < (walk price (reverseOrders book p) amount 0).2 then
      some (jmul (.num (walk price (reverseOrders book p) amount 0).2)
        (jsOr price (avgPrice book (reverseOrders book p))))
    else none

/-- Total `from`-token liquidity of an order list:
sum of `order.quantity * order.price`. -/
def liquidity (os : List Order) : ℚ :=
  sumQ (os.map (fun o => o.quantity * o.price))

/-- Error message of the pair validation in `swap` and `estimateSwap`. -/
def invalidPairMsg : String :=
  "Invalid ID in pair. Must be a valid SmartWeave contract ID"

/-- Error message of the amount validation in `swap` and `estimateSwap`. -/
def invalidAmountMsg : String :=
  "Amount must be greater than 0"

/-- Trace entry recorded when the order book is fetched. -/
def getOrderBookCall : String :=
  "getOrderBook"

/-- Embedding of `Exchange.estimateSwap` (src/common/exchange.ts:285-373):
validate the two hashes, validate the amount, and only then fetch the
order book (recorded in the call trace) and run the pure estimation. -/
def estimateSwapTraced (book : List Order) (p : SwapPair) (amount : ℚ)
    (price : Option ℚ) : Traced Estimate :=
  if validateHash (.str p.«from») = false ∨ validateHash (.str p.«to») = false then
    ⟨[], .error invalidPairMsg⟩
  else if amount ≤ 0 then ⟨[], .error invalidAmountMsg⟩
  else ⟨[getOrderBookCall], .ok (estimateCore book p amount price)⟩

/-- Embedding of the validation prefix of `Exchange.swap`
(src/common/exchange.ts:98-185).  Everything after the two validations
(token transfer, order interaction, fees, webhook) is abstracted as the
collaborator `collab`, which produces its own call trace and outcome. -/
def swapTraced (collab : SwapPair → ℚ → Option ℚ → Traced String)
    (p : SwapPair) (amount : ℚ) (price : Option ℚ) : Traced String :=
  if validateHash (.str p.«from») = false ∨ validateHash (.str p.«to») = false then
    ⟨[], .error invalidPairMsg⟩
  else if amount ≤ 0 then ⟨[], .error invalidAmountMsg⟩
  else collab p amount price

/-- Fixed exchange wallet (`Utils.EXCHANGE_WALLET`). -/
def EXCHANGE_WALLET : String :=
  "aLemOhg9OGovn-0o4cOCbueiHT9VgdYnpJpq7NgMA1A"

/-- Fixed fee rate (`Utils.EXCHANGE_FEE = 0.005`). -/
def EXCHANGE_FEE : ℚ :=
  0.005

/-- Fee target selector (`"exchange" | "token_holder"`). -/
inductive FeeTarget where
  | exchange : FeeTarget
  | tokenHolder : FeeTarget
deriving DecidableEq

/-- Outcome of `Utils.createFee` that the claims talk about: the fee
quantity put in the transfer input and the recipient of the transfer. -/
structure FeeResult where
  fee : ℤ
  target : String
deriving DecidableEq

/-- Embedding of `Utils.createFee` (src/utils.ts:62-103):
`fee = Math.ceil(Math.ceil(amount) * EXCHANGE_FEE)`; the recipient is the
fixed exchange wallet for target `"exchange"`, otherwise the holder
returned by `selectWeightedHolder` (passed in as `holder`). -/
def createFee (amount : ℚ) (feeTarget : FeeTarget) (holder : String) :
    FeeResult where
  fee := ⌈(⌈amount⌉ : ℚ) * EXCHANGE_FEE⌉
  target :=
    match feeTarget with
    | .exchange => EXCHANGE_WALLET
    | .tokenHolder => holder

/-- The loop of `Utils.weightedRandom` (src/utils.ts:568-580) with the
uniform draw `r` passed explicitly and the running cumulative sum as an
accumulator; `some key` is the loop's early return, `none` means the loop
exhausted the map. -/
def weightedWalk (r : ℚ) : ℚ → List (String × ℚ) → Option String
  | _, [] => none
  | acc, kw :: rest =>
    if r ≤ acc + kw.2 ∧ 0 < kw.2 then some kw.1
    else weightedWalk r (acc + kw.2) rest

/-- Embedding of `Utils.weightedRandom`: run the walk from sum `0`; if it
exhausts the map, fall back to the exchange wallet. -/
def weightedRandom (r : ℚ) (input : List (String × ℚ)) : String :=
  (weightedWalk r 0 input).getD EXCHANGE_WALLET

/-- Vault entry of the community contract state (`VaultInterface`):
a balance locked between ledger heights `start` and `end`. -/
structure VaultEntry where
  balance : ℚ
  start : ℤ
  «end» : ℤ
deriving DecidableEq

/-- Balances object of the contract state, in key-insertion order. -/
abbrev Balances := List (String × ℚ)

/-- Vault object of the contract state, in key-insertion order. -/
abbrev Vault := List (String × List VaultEntry)

/-- JavaScript `balances[addr] += v` with `balances[addr] = v` when the
key is absent: the first occurrence is updated in place, a missing key is
appended. -/
def upsertAdd : Balances → String → ℚ → Balances
  | [], k, v => [(k, v)]
  | kv :: rest, k, v =>
    if kv.1 = k then (kv.1, kv.2 + v) :: rest
    else kv :: upsertAdd rest k v

/-- One iteration of the vault loop of `Utils.selectWeightedHolder`
(src/utils.ts:538-552): skip empty entry lists, otherwise add the sum of
this address's vault balances to the running total and to the address's
balance.  No unlock-height comparison appears in the source. -/
def vaultStep (acc : Balances × ℚ) (av : String × List VaultEntry) :
    Balances × ℚ :=
  if av.2.isEmpty then acc
  else
    (upsertAdd acc.1 av.1 (sumQ (av.2.map (·.balance))),
      acc.2 + sumQ (av.2.map (·.balance)))

/-- Weight map built by `Utils.selectWeightedHolder`: balances after the
vault loop, each divided by the accumulated total. -/
def buildWeighted (balances : Balances) (vault : Vault) : Balances :=
  ((vault.foldl vaultStep (balances, sumQ (balances.map (·.2)))).1).map
    (fun kv =>
      (kv.1, kv.2 / (vault.foldl vaultStep (balances, sumQ (balances.map (·.2)))).2))

/-- Embedding of `Utils.selectWeightedHolder` with the fetched contract
state (`balances`, `vault`) and the uniform draw passed explicitly. -/
def selectWeightedHolder (r : ℚ) (balances : Balances) (vault : Vault) :
    String :=
  weightedRandom r (buildWeighted balances vault)

/-- Modelled from the spec's words (section 4.3), for comparison with the
source: one vault-loop iteration that counts a vault entry only when its
unlock height has not yet passed relative to the current chain height
(`height < entry.end`). -/
def vaultStepSpec (height : ℤ) (acc : Balances × ℚ)
    (av : String × List VaultEntry) : Balances × ℚ :=
  let live := av.2.filter (fun e => decide (height < e.«end»))
  if live.isEmpty then acc
  else
    (upsertAdd acc.1 av.1 (sumQ (live.map (·.balance))),
      acc.2 + sumQ (live.map (·.balance)))

/-- Modelled from the spec's words: the weight map with only
still-locked vault entries counted. -/
def buildWeightedSpec (height : ℤ) (balances : Balances) (vault : Vault) :
    Balances :=
  ((vault.foldl (vaultStepSpec height) (balances, sumQ (balances.map (·.2)))).1).map
    (fun kv =>
      (kv.1,
        kv.2 /
          (vault.foldl (vaultStepSpec height) (balances, sumQ (balances.map (·.2)))).2))

/-- Modelled from the spec's words: holder selection over the
height-filtered weight map. -/
def selectWeightedHolderSpec (r : ℚ) (height : ℤ) (balances : Balances)
    (vault : Vault) : String :=
  weightedRandom r (buildWeightedSpec height balances vault)

/-- Sum of every vault balance recorded for `addr` (all entries of every
nonempty list stored under that key, with no height condition). -/
def vaultSumFor (addr : String) (vault : Vault) : ℚ :=
  sumQ ((vault.filter (fun av => (av.1 == addr) && !av.2.isEmpty)).map
    (fun av => sumQ (av.2.map (·.balance))))

/-- Sum of every vault balance of every address (nonempty lists only,
matching the `continue` of the source loop; empty lists contribute 0
either way). -/
def vaultTotal (vault : Vault) : ℚ :=
  sumQ ((vault.filter (fun av => !av.2.isEmpty)).map
    (fun av => sumQ (av.2.map (·.balance))))

/-- Denominator of the weight map: all direct balances plus all vault
balances. -/
def grandTotal (balances : Balances) (vault : Vault) : ℚ :=
  sumQ (balances.map (·.2)) + vaultTotal vault

/-- A syntactically valid 43-character address made of `a`s. -/
def hashA : String :=
  String.mk (List.replicate 43 'a')

/-- A syntactically valid 43-character address made of `b`s. -/
def hashB : String :=
  String.mk (List.replicate 43 'b')

/-- The pair `from = hashA, to = hashB` used by the concrete order-book
scenarios. -/
def pairAB : SwapPair :=
  ⟨hashA, hashB⟩

/-- Order id used by the single-order scenarios. -/
def orderId1 : String :=
  "order1"

/-- Order book of the concrete scenarios of the spec: one reverse order
offering token `hashB` at price 2 with quantity 100. -/
def demoBook : List Order :=
  [⟨orderId1, hashB, 2, 100⟩]

/-- Order id used by the same-direction order of the zero-limit-price
scenario. -/
def orderIdS : String :=
  "same1"

/-- Order book with no reverse order and one same-direction order at
price 4 (its token is the `from` side of `pairAB`). -/
def sameDirBook : List Order :=
  [⟨orderIdS, hashA, 4, 50⟩]

/-- Order id of the small first order of the zero-limit-price walk
scenario. -/
def orderIdT : String :=
  "tiny1"

/-- Order book whose first reverse order has price 2 but only quantity 1,
followed by a second reverse order; used to show the zero-limit-price
anomaly ignores quantities. -/
def tinyFirstBook : List Order :=
  [⟨orderIdT, hashB, 2, 1⟩, ⟨orderId1, hashB, 3, 50⟩]

/-- Holder name used in concrete fee/selection scenarios. -/
def aliceAddr : String :=
  "alice"

/-- Holder name used in concrete fee/selection scenarios. -/
def bobAddr : String :=
  "bob"

/-- Concrete balances: alice and bob each hold 1 directly. -/
def balances3 : Balances :=
  [(aliceAddr, 1), (bobAddr, 1)]

/-- Concrete vault: bob has a single entry of 6 tokens locked from height
0 to height 5. -/
def vault3 : Vault :=
  [(bobAddr, [⟨6, 0, 5⟩])]

/-- Concrete weight map for the weighted-selector witness. -/
def input5 : List (String × ℚ) :=
  [(aliceAddr, 1 / 2), (bobAddr, 1 / 2)]

/-- Concrete balances for the vault-characterisation witness. -/
def balW : Balances :=
  [(aliceAddr, 2)]

/-- Concrete vault for the vault-characterisation witness. -/
def vaultW : Vault :=
  [(aliceAddr, [⟨3, 0, 5⟩])]

/-- Folding addition from any accumulator equals the accumulator plus the
fold from zero. -/
theorem foldl_add_shift (l : List ℚ) :
    ∀ a : ℚ, l.foldl (· + ·) a = a + l.foldl (· + ·) 0 := by
  induction l with
  | nil => intro a; simp
  | cons x xs ih =>
    intro a
    simp only [List.foldl_cons]
    rw [ih (a + x), ih (0 + x)]
    ring

/-- Unfolding of `sumQ` on a cons cell. -/
theorem sumQ_cons (x : ℚ) (l : List ℚ) : sumQ (x :: l) = x + sumQ l := by
  simp only [sumQ, List.foldl_cons]
  rw [foldl_add_shift]
  ring

/-- A sum of nonnegative rationals is nonnegative. -/
theorem sumQ_nonneg (l : List ℚ) (h : ∀ x ∈ l, 0 ≤ x) : 0 ≤ sumQ l := by
  induction l with
  | nil => simp [sumQ]
  | cons x xs ih =>
    rw [sumQ_cons]
    have hx := h x (by simp)
    have hxs := ih (fun y hy => h y (by simp [hy]))
    linarith

/-- A nonnegative weight list with positive total contains a positive
weight. -/
theorem exists_pos_of_sumQ_pos (l : List (String × ℚ))
    (hnn : ∀ kw ∈ l, 0 ≤ kw.2) (hpos : 0 < sumQ (l.map (·.2))) :
    ∃ kw ∈ l, 0 < kw.2 := by
  induction l with
  | nil => simp [sumQ] at hpos
  | cons kw rest ih =>
    rw [List.map_cons, sumQ_cons] at hpos
    by_cases hk : 0 < kw.2
    · exact ⟨kw, by simp, hk⟩
    · have h0 : kw.2 = 0 :=
        le_antisymm (not_lt.mp hk) (hnn kw (by simp))
      have : 0 < sumQ (rest.map (·.2)) := by rw [h0] at hpos; linarith
      obtain ⟨kw', hmem, hp⟩ := ih (fun x hx => hnn x (by simp [hx])) this
      exact ⟨kw', by simp [hmem], hp⟩

/-- Unfolding of `liquidity` on a cons cell. -/
theorem liquidity_cons (o : Order) (os : List Order) :
    liquidity (o :: os) = o.quantity * o.price + liquidity os := by
  simp only [liquidity, List.map_cons]
  exact sumQ_cons _ _

/-- A walk started with a nonpositive remainder stops at once. -/
theorem walk_stop (price : Option ℚ) (os : List Order) (rem imm : ℚ)
    (h : rem ≤ 0) : walk price os rem imm = (imm, rem) := by
  cases os with
  | nil => rfl
  | cons o os => simp [walk, h]

/-- Unfolding of one walk step when the remainder is positive and the
order is not skipped. -/
theorem walk_cons_active (price : Option ℚ) (o : Order) (os : List Order)
    (rem imm : ℚ) (hrem : ¬ rem ≤ 0) (hsk : skipOrder price o = false) :
    walk price (o :: os) rem imm =
      if rem * (price.getD (1 / o.price)) ≤ o.quantity then
        (imm + rem * (1 / o.price), 0)
      else walk price os (rem - o.quantity * o.price) (imm + o.quantity) := by
  rw [walk, if_neg hrem, hsk]
  simp

/-- When no order is skipped and the book's liquidity covers the whole
remainder, the walk ends with a nonpositive remaining quantity. -/
theorem walk_rem_nonpos (price : Option ℚ) :
    ∀ (os : List Order) (rem imm : ℚ),
      (∀ o ∈ os, skipOrder price o = false) →
      rem ≤ liquidity os → (walk price os rem imm).2 ≤ 0 := by
  intro os
  induction os with
  | nil =>
    intro rem imm _ hle
    simpa [walk, liquidity, sumQ] using hle
  | cons o os ih =>
    intro rem imm hskip hle
    by_cases hrem : rem ≤ 0
    · simp [walk, hrem]
    · have hsk : skipOrder price o = false := hskip o (by simp)
      rw [liquidity_cons] at hle
      rw [walk_cons_active price o os rem imm hrem hsk]
      by_cases hfill : rem * (price.getD (1 / o.price)) ≤ o.quantity
      · rw [if_pos hfill]
      · rw [if_neg hfill]
        exact ih (rem - o.quantity * o.price) (imm + o.quantity)
          (fun o' ho' => hskip o' (by simp [ho'])) (by linarith)

/-- Valid pair hashes and a positive amount make `estimateSwap` fetch the
order book and return the pure estimation. -/
theorem estimateSwapTraced_ok (book : List Order) (p : SwapPair)
    (amount : ℚ) (price : Option ℚ)
    (h1 : validateHash (.str p.«from») = true)
    (h2 : validateHash (.str p.«to») = true) (ha : 0 < amount) :
    estimateSwapTraced book p amount price =
      ⟨[getOrderBookCall], .ok (estimateCore book p amount price)⟩ := by
  rw [estimateSwapTraced, if_neg, if_neg (not_le.mpr ha)]
  simp [h1, h2]

/-- The anchored class repetition matches exactly the lists of the stated
length whose characters all belong to the class. -/
theorem matchClassN_iff :
    ∀ (l : List Char) (n : Nat),
      matchClassN n l = true ↔
        (l.length = n ∧ ∀ c ∈ l, isHashChar c = true) := by
  intro l
  induction l with
  | nil =>
    intro n
    cases n with
    | zero => simp [matchClassN]
    | succ m => simp [matchClassN]
  | cons c cs ih =>
    intro n
    cases n with
    | zero => simp [matchClassN]
    | succ m =>
      rw [matchClassN, Bool.and_eq_true, ih m]
      constructor
      · rintro ⟨hc, hlen, hall⟩
        refine ⟨by simp [hlen], ?_⟩
        intro x hx
        rcases List.mem_cons.mp hx with h | h
        · rw [h]; exact hc
        · exact hall x h
      · rintro ⟨hlen, hall⟩
        exact ⟨hall c (by simp), by simpa using hlen,
          fun x hx => hall x (by simp [hx])⟩

/-- Every participant the selector walk returns carries a strictly
positive weight and belongs to the map. -/
theorem weightedWalk_some_mem (r : ℚ) :
    ∀ (input : List (String × ℚ)) (acc : ℚ) (p : String),
      weightedWalk r acc input = some p →
      ∃ w, (p, w) ∈ input ∧ 0 < w := by
  intro input
  induction input with
  | nil => intro acc p h; simp [weightedWalk] at h
  | cons kw rest ih =>
    intro acc p h
    rw [weightedWalk] at h
    by_cases hc : r ≤ acc + kw.2 ∧ 0 < kw.2
    · rw [if_pos hc] at h
      refine ⟨kw.2, ?_, hc.2⟩
      have : p = kw.1 := by simpa using h.symm
      simp [this]
    · rw [if_neg hc] at h
      obtain ⟨w, hmem, hw⟩ := ih (acc + kw.2) p h
      exact ⟨w, by simp [hmem], hw⟩

/-- If the selector walk returns a participant, the draw does not exceed
the accumulator plus the total weight. -/
theorem weightedWalk_isSome_le (r : ℚ) :
    ∀ (input : List (String × ℚ)) (acc : ℚ),
      (∀ kw ∈ input, 0 ≤ kw.2) →
      (weightedWalk r acc input).isSome = true →
      r ≤ acc + sumQ (input.map (·.2)) := by
  intro input
  induction input with
  | nil => intro acc _ h; simp [weightedWalk] at h
  | cons kw rest ih =>
    intro acc hnn h
    rw [weightedWalk] at h
    rw [List.map_cons, sumQ_cons]
    by_cases hc : r ≤ acc + kw.2 ∧ 0 < kw.2
    · have hrest : 0 ≤ sumQ (rest.map (·.2)) := by
        refine sumQ_nonneg _ ?_
        intro x hx
        obtain ⟨kw', hkw', hx'⟩ := List.mem_map.mp hx
        exact hx' ▸ hnn kw' (by simp [hkw'])
      linarith [hc.1]
    · rw [if_neg hc] at h
      have := ih (acc + kw.2) (fun x hx => hnn x (by simp [hx])) h
      linarith

/-- If the total weight reaches the draw and some weight is positive, the
selector walk returns a participant. -/
theorem weightedWalk_isSome_of (r : ℚ) :
    ∀ (input : List (String × ℚ)) (acc : ℚ),
      (∀ kw ∈ input, 0 ≤ kw.2) →
      r ≤ acc + sumQ (input.map (·.2)) →
      (∃ kw ∈ input, 0 < kw.2) →
      (weightedWalk r acc input).isSome = true := by
  intro input
  induction input with
  | nil => intro acc _ _ h; simp at h
  | cons kw rest ih =>
    intro acc hnn hr hpos
    rw [weightedWalk]
    by_cases hc : r ≤ acc + kw.2 ∧ 0 < kw.2
    · rw [if_pos hc]; rfl
    · rw [if_neg hc]
      rw [List.map_cons, sumQ_cons] at hr
      have hnnrest : ∀ kw' ∈ rest, 0 ≤ kw'.2 :=
        fun x hx => hnn x (by simp [hx])
      have hr' : r ≤ acc + kw.2 + sumQ (rest.map (·.2)) := by linarith
      refine ih (acc + kw.2) hnnrest hr' ?_
      by_cases hk : 0 < kw.2
      · have hnr : ¬ r ≤ acc + kw.2 := fun hle => hc ⟨hle, hk⟩
        have hsum : 0 < sumQ (rest.map (·.2)) := by linarith
        exact exists_pos_of_sumQ_pos rest hnnrest hsum
      · obtain ⟨kw', hmem, hw⟩ := hpos
        rcases List.mem_cons.mp hmem with h | h
        · exact absurd (h ▸ hw) hk
        · exact ⟨kw', h, hw⟩

/-- Unfolding of `List.lookup` on a cons cell, phrased with propositional
equality of the keys. -/
theorem lookup_cons_unfold {β : Type} (k : String) (kv : String × β)
    (rest : List (String × β)) :
    (kv :: rest).lookup k = if kv.1 = k then some kv.2 else rest.lookup k := by
  by_cases h : kv.1 = k
  · rw [if_pos h, List.lookup]
    have hb : (k == kv.1) = true := beq_iff_eq.mpr h.symm
    rw [hb]
  · rw [if_neg h, List.lookup]
    have hb : (k == kv.1) = false :=
      beq_eq_false_iff_ne.mpr fun e => h e.symm
    rw [hb]

/-- Updating a key adds to the value found for it. -/
theorem lookup_upsertAdd_self :
    ∀ (l : Balances) (k : String) (v b : ℚ),
      l.lookup k = some b → (upsertAdd l k v).lookup k = some (b + v) := by
  intro l
  induction l with
  | nil => intro k v b h; simp [List.lookup] at h
  | cons kv rest ih =>
    intro k v b h
    rw [lookup_cons_unfold] at h
    by_cases hk : kv.1 = k
    · rw [if_pos hk] at h
      rw [upsertAdd, if_pos hk, lookup_cons_unfold, if_pos hk]
      simp at h
      rw [h]
    · rw [if_neg hk] at h
      rw [upsertAdd, if_neg hk, lookup_cons_unfold, if_neg hk]
      exact ih k v b h

/-- Updating one key leaves every other key's lookup unchanged. -/
theorem lookup_upsertAdd_other :
    ∀ (l : Balances) (k' : String) (v : ℚ) (k : String), k' ≠ k →
      (upsertAdd l k' v).lookup k = l.lookup k := by
  intro l
  induction l with
  | nil =>
    intro k' v k hne
    rw [upsertAdd, lookup_cons_unfold, if_neg hne]
  | cons kv rest ih =>
    intro k' v k hne
    by_cases hk : kv.1 = k'
    · have hkk : kv.1 ≠ k := fun e => hne (hk.symm.trans e)
      rw [upsertAdd, if_pos hk, lookup_cons_unfold, lookup_cons_unfold]
      simp [hkk]
    · rw [upsertAdd, if_neg hk, lookup_cons_unfold, lookup_cons_unfold,
        ih k' v k hne]

/-- Lookup commutes with mapping a function over the values. -/
theorem lookup_map_snd (f : ℚ → ℚ) :
    ∀ (l : Balances) (k : String),
      (l.map (fun kv => (kv.1, f kv.2))).lookup k = (l.lookup k).map f := by
  intro l
  induction l with
  | nil => intro k; simp [List.lookup]
  | cons kv rest ih =>
    intro k
    rw [List.map_cons, lookup_cons_unfold, lookup_cons_unfold]
    by_cases hk : kv.1 = k
    · rw [if_pos hk, if_pos hk]
      rfl
    · rw [if_neg hk, if_neg hk]
      exact ih k

/-- Skipped cons case of `vaultSumFor`: an empty entry list contributes
nothing. -/
theorem vaultSumFor_cons_empty (addr : String) (av : String × List VaultEntry)
    (rest : Vault) (hes : av.2.isEmpty = true) :
    vaultSumFor addr (av :: rest) = vaultSumFor addr rest := by
  rw [vaultSumFor, vaultSumFor, List.filter_cons]
  simp [hes]

/-- Cons case of `vaultSumFor` for a different address. -/
theorem vaultSumFor_cons_other (addr : String) (av : String × List VaultEntry)
    (rest : Vault) (ha : av.1 ≠ addr) :
    vaultSumFor addr (av :: rest) = vaultSumFor addr rest := by
  rw [vaultSumFor, vaultSumFor, List.filter_cons]
  simp [ha]

/-- Cons case of `vaultSumFor` for the address itself with a nonempty
entry list. -/
theorem vaultSumFor_cons_self (addr : String) (av : String × List VaultEntry)
    (rest : Vault) (ha : av.1 = addr) (hes : av.2.isEmpty = false) :
    vaultSumFor addr (av :: rest) =
      sumQ (av.2.map (·.balance)) + vaultSumFor addr rest := by
  rw [vaultSumFor, vaultSumFor, List.filter_cons]
  simp only [ha, hes, beq_self_eq_true, Bool.not_false, Bool.and_self,
    if_true, List.map_cons]
  exact sumQ_cons _ _

/-- The vault loop adds exactly the recorded vault total of an address to
that address's balance. -/
theorem foldl_vaultStep_lookup :
    ∀ (vault : Vault) (bal : Balances) (tot : ℚ) (addr : String) (b : ℚ),
      bal.lookup addr = some b →
      ((vault.foldl vaultStep (bal, tot)).1).lookup addr =
        some (b + vaultSumFor addr vault) := by
  intro vault
  induction vault with
  | nil =>
    intro bal tot addr b h
    simpa [vaultSumFor, sumQ] using h
  | cons av rest ih =>
    intro bal tot addr b h
    rw [List.foldl_cons]
    by_cases hes : av.2.isEmpty
    · rw [vaultStep, if_pos hes, ih bal tot addr b h,
        vaultSumFor_cons_empty addr av rest hes]
    · rw [vaultStep, if_neg hes]
      by_cases ha : av.1 = addr
      · have h1 : (upsertAdd bal av.1 (sumQ (av.2.map (·.balance)))).lookup addr =
            some (b + sumQ (av.2.map (·.balance))) := by
          rw [ha]
          exact lookup_upsertAdd_self bal addr _ b h
        show (List.foldl vaultStep
            (upsertAdd bal av.1 (sumQ (av.2.map (·.balance))),
              tot + sumQ (av.2.map (·.balance))) rest).1.lookup addr =
          some (b + vaultSumFor addr (av :: rest))
        rw [ih _ _ addr _ h1,
          vaultSumFor_cons_self addr av rest ha (by simpa using hes)]
        ring_nf
      · have h1 : (upsertAdd bal av.1 (sumQ (av.2.map (·.balance)))).lookup addr =
            some b := by
          rw [lookup_upsertAdd_other bal av.1 _ addr ha]
          exact h
        show (List.foldl vaultStep
            (upsertAdd bal av.1 (sumQ (av.2.map (·.balance))),
              tot + sumQ (av.2.map (·.balance))) rest).1.lookup addr =
          some (b + vaultSumFor addr (av :: rest))
        rw [ih _ _ addr _ h1, vaultSumFor_cons_other addr av rest ha]

/-- The vault loop's running total accumulates every nonempty vault
list's balance sum. -/
theorem foldl_vaultStep_total :
    ∀ (vault : Vault) (bal : Balances) (tot : ℚ),
      (vault.foldl vaultStep (bal, tot)).2 = tot + vaultTotal vault := by
  intro vault
  induction vault with
  | nil => intro bal tot; simp [vaultTotal, sumQ]
  | cons av rest ih =>
    intro bal tot
    rw [List.foldl_cons]
    by_cases hes : av.2.isEmpty
    · rw [vaultStep, if_pos hes, ih]
      have : vaultTotal (av :: rest) = vaultTotal rest := by
        rw [vaultTotal, vaultTotal, List.filter_cons]
        simp [hes]
      rw [this]
    · rw [vaultStep, if_neg hes]
      show (List.foldl vaultStep
          (upsertAdd bal av.1 (sumQ (av.2.map (·.balance))),
            tot + sumQ (av.2.map (·.balance))) rest).2 =
        tot + vaultTotal (av :: rest)
      rw [ih]
      have : vaultTotal (av :: rest) =
          sumQ (av.2.map (·.balance)) + vaultTotal rest := by
        rw [vaultTotal, vaultTotal, List.filter_cons]
        simp only [hes, Bool.not_false, if_true, List.map_cons]
        exact sumQ_cons _ _
      rw [this]
      ring

/-- C9: the address validator accepts an input exactly when it is a
string of exactly 43 characters drawn from [A-Za-z0-9_-]; every other
string and every non-string input is rejected. -/
theorem validateHash_characterization :
    (∀ s : String, validateHashStr s = true ↔
        (s.length = 43 ∧ ∀ c ∈ s.toList, isHashChar c = true)) ∧
    (∀ v : JsVal, v.isString = false → validateHash v = false) := by
  constructor
  · intro s
    rw [validateHashStr, matchClassN_iff]
    have hlen : s.toList.length = s.length := rfl
    rw [hlen]
  · intro v hv
    cases v with
    | str s => simp [JsVal.isString] at hv
    | num q => rfl
    | boolean b => rfl
    | nullV => rfl
    | undef => rfl

/-- Witness for C9: a concrete non-string value is rejected, and the
characterisation holds at a concrete 43-character string. -/
theorem validateHash_characterization_witness :
    validateHash (JsVal.num 0) = false ∧
    (validateHashStr hashA = true ↔
      (hashA.length = 43 ∧ ∀ c ∈ hashA.toList, isHashChar c = true)) :=
  ⟨validateHash_characterization.2 (JsVal.num 0) rfl,
    validateHash_characterization.1 hashA⟩

/-- C7: the weighted selector is total: on every weight map, including
the empty one, it returns either a participant that matched during the
walk (which then carries positive weight) or the fallback identifier,
and on the empty map it always returns the fallback. -/
theorem weightedRandom_never_throws :
    (∀ r : ℚ, weightedRandom r [] = EXCHANGE_WALLET) ∧
    (∀ (r : ℚ) (input : List (String × ℚ)),
      weightedRandom r input = EXCHANGE_WALLET ∨
      ∃ w, (weightedRandom r input, w) ∈ input ∧ 0 < w) := by
  constructor
  · intro r; rfl
  · intro r input
    cases h : weightedWalk r 0 input with
    | none =>
      left
      rw [weightedRandom, h]
      rfl
    | some p =>
      right
      obtain ⟨w, hmem, hw⟩ := weightedWalk_some_mem r input 0 p h
      have hres : weightedRandom r input = p := by rw [weightedRandom, h]; rfl
      exact ⟨w, hres ▸ hmem, hw⟩

/-- C5: over a nonnegative weight map and a draw in [0, 1), the selector
walk returns some participant exactly when the draw does not exceed the
total weight and some weight is positive; any returned participant has
strictly positive weight.  In consequence the fallback is hit exactly on
the draws above the total weight, a set of measure max(0, 1 - sum). -/
theorem weightedRandom_cumulative_characterization
    (input : List (String × ℚ)) (r : ℚ)
    (hnn : ∀ kw ∈ input, 0 ≤ kw.2) (h0 : 0 ≤ r) (h1 : r < 1) :
    (∀ p, weightedWalk r 0 input = some p → ∃ w, (p, w) ∈ input ∧ 0 < w) ∧
    ((weightedWalk r 0 input).isSome = true ↔
      (r ≤ sumQ (input.map (·.2)) ∧ ∃ kw ∈ input, 0 < kw.2)) := by
  constructor
  · intro p hp
    exact weightedWalk_some_mem r input 0 p hp
  · constructor
    · intro hs
      constructor
      · have := weightedWalk_isSome_le r input 0 hnn hs
        linarith
      · obtain ⟨p, hp⟩ := Option.isSome_iff_exists.mp hs
        obtain ⟨w, hmem, hw⟩ := weightedWalk_some_mem r input 0 p hp
        exact ⟨(p, w), hmem, hw⟩
    · rintro ⟨hr, hpos⟩
      exact weightedWalk_isSome_of r input 0 hnn (by linarith) hpos

/-- Witness for C5 at a concrete half-half weight map and the draw 1/4. -/
theorem weightedRandom_cumulative_characterization_witness :
    (weightedWalk (1 / 4) 0 input5).isSome = true ↔
      ((1 : ℚ) / 4 ≤ sumQ (input5.map (·.2)) ∧ ∃ kw ∈ input5, 0 < kw.2) :=
  (weightedRandom_cumulative_characterization input5 (1 / 4)
    (by norm_num [input5, aliceAddr, bobAddr]) (by norm_num) (by norm_num)).2

/-- C4: the fee is the double ceiling ceil(ceil(amount) * feeRate) for
every amount; at amount 999 with the fixed rate 0.005 it is 5, and for
the target "exchange" the recipient is the fixed exchange wallet. -/
theorem createFee_double_ceiling :
    (∀ (a : ℚ) (t : FeeTarget) (h : String),
        (createFee a t h).fee = ⌈(⌈a⌉ : ℚ) * EXCHANGE_FEE⌉) ∧
    (createFee 999 .exchange bobAddr).fee = 5 ∧
    (∀ (a : ℚ) (h : String), (createFee a .exchange h).target = EXCHANGE_WALLET) := by
  refine ⟨fun a t h => rfl, ?_, fun a h => rfl⟩
  norm_num [createFee, EXCHANGE_FEE, Int.ceil_eq_iff]

/-- Structure-literal form of `estimateCore`, for rewriting. -/
theorem estimateCore_eq (book : List Order) (p : SwapPair) (amount : ℚ)
    (price : Option ℚ) :
    estimateCore book p amount price =
      ⟨(walk price (reverseOrders book p) amount 0).1,
        if 0 < (walk price (reverseOrders book p) amount 0).2 then
          some (jmul (.num (walk price (reverseOrders book p) amount 0).2)
            (jsOr price (avgPrice book (reverseOrders book p))))
        else none⟩ := rfl

/-- Concrete fact: the all-a address passes validation. -/
theorem validateHash_hashA : validateHash (.str hashA) = true := by decide

/-- Concrete fact: the all-b address passes validation. -/
theorem validateHash_hashB : validateHash (.str hashB) = true := by decide

/-- Concrete fact: every order of `demoBook` is a reverse order for
`pairAB`. -/
theorem revDemo : reverseOrders demoBook pairAB = demoBook := by decide

/-- Concrete fact: `sameDirBook` holds no reverse order for `pairAB`. -/
theorem revSameDir : reverseOrders sameDirBook pairAB = [] := by decide

/-- Concrete fact: the same-direction prices of `sameDirBook`. -/
theorem sameDirPricesFact : sameDirPrices sameDirBook [] = [4] := by decide

/-- Concrete fact: both orders of `tinyFirstBook` are reverse orders for
`pairAB`. -/
theorem revTinyFirst :
    reverseOrders tinyFirstBook pairAB =
      ⟨orderIdT, hashB, 2, 1⟩ :: [⟨orderId1, hashB, 3, 50⟩] := by decide

/-- C8: on a malformed pair hash or a non-positive amount, `estimateSwap`
and `swap` fail synchronously: the error is returned with an empty call
trace (no order-book fetch, no collaborator interaction), no partial
result, and the outcome does not depend on the collaborator at all. -/
theorem validation_precedes_external_calls :
    (∀ (book : List Order) (p : SwapPair) (amount : ℚ) (price : Option ℚ),
        validateHash (.str p.«from») = false ∨
          validateHash (.str p.«to») = false ∨ amount ≤ 0 →
        (estimateSwapTraced book p amount price).calls = [] ∧
        (∃ e, (estimateSwapTraced book p amount price).result = .error e) ∧
        ∀ book2, estimateSwapTraced book p amount price =
          estimateSwapTraced book2 p amount price) ∧
    (∀ (collab : SwapPair → ℚ → Option ℚ → Traced String) (p : SwapPair)
        (amount : ℚ) (price : Option ℚ),
        validateHash (.str p.«from») = false ∨
          validateHash (.str p.«to») = false ∨ amount ≤ 0 →
        (swapTraced collab p amount price).calls = [] ∧
        (∃ e, (swapTraced collab p amount price).result = .error e) ∧
        ∀ collab2, swapTraced collab p amount price =
          swapTraced collab2 p amount price) := by
  constructor
  · intro book p amount price h
    by_cases hc : validateHash (.str p.«from») = false ∨
        validateHash (.str p.«to») = false
    · have he : ∀ b : List Order,
          estimateSwapTraced b p amount price = ⟨[], .error invalidPairMsg⟩ := by
        intro b
        rw [estimateSwapTraced, if_pos hc]
      exact ⟨by rw [he book], ⟨invalidPairMsg, by rw [he book]⟩,
        fun book2 => by rw [he book, he book2]⟩
    · have hamt : amount ≤ 0 := by
        rcases h with h | h | h
        · exact absurd (Or.inl h) hc
        · exact absurd (Or.inr h) hc
        · exact h
      have he : ∀ b : List Order,
          estimateSwapTraced b p amount price = ⟨[], .error invalidAmountMsg⟩ := by
        intro b
        rw [estimateSwapTraced, if_neg hc, if_pos hamt]
      exact ⟨by rw [he book], ⟨invalidAmountMsg, by rw [he book]⟩,
        fun book2 => by rw [he book, he book2]⟩
  · intro collab p amount price h
    by_cases hc : validateHash (.str p.«from») = false ∨
        validateHash (.str p.«to») = false
    · have he : ∀ c : SwapPair → ℚ → Option ℚ → Traced String,
          swapTraced c p amount price = ⟨[], .error invalidPairMsg⟩ := by
        intro c
        rw [swapTraced, if_pos hc]
      exact ⟨by rw [he collab], ⟨invalidPairMsg, by rw [he collab]⟩,
        fun collab2 => by rw [he collab, he collab2]⟩
    · have hamt : amount ≤ 0 := by
        rcases h with h | h | h
        · exact absurd (Or.inl h) hc
        · exact absurd (Or.inr h) hc
        · exact h
      have he : ∀ c : SwapPair → ℚ → Option ℚ → Traced String,
          swapTraced c p amount price = ⟨[], .error invalidAmountMsg⟩ := by
        intro c
        rw [swapTraced, if_neg hc, if_pos hamt]
      exact ⟨by rw [he collab], ⟨invalidAmountMsg, by rw [he collab]⟩,
        fun collab2 => by rw [he collab, he collab2]⟩

/-- Witness for C8 at a concrete malformed pair. -/
theorem validation_precedes_external_calls_witness :
    (estimateSwapTraced demoBook ⟨orderId1, hashB⟩ 5 none).calls = [] ∧
    (∃ e, (estimateSwapTraced demoBook ⟨orderId1, hashB⟩ 5 none).result =
      .error e) ∧
    ∀ book2, estimateSwapTraced demoBook ⟨orderId1, hashB⟩ 5 none =
      estimateSwapTraced book2 ⟨orderId1, hashB⟩ 5 none :=
  validation_precedes_external_calls.1 demoBook ⟨orderId1, hashB⟩ 5 none
    (Or.inl (by decide))

/-- C1: whenever the pair is valid, the amount positive, every reverse
order has a positive price (and carries the limit price when one is
given), and the reverse book's total quantity*price liquidity covers the
amount, the estimate has no `rest` and its `immediate` is the value
accumulated by the walk; in particular the concrete case amount 10
against one reverse order (price 2, quantity 100) yields immediate 5 and
no rest. -/
theorem estimateSwap_sufficient_liquidity :
    (∀ (book : List Order) (p : SwapPair) (amount : ℚ) (price : Option ℚ),
        validateHash (.str p.«from») = true →
        validateHash (.str p.«to») = true →
        0 < amount →
        (∀ o ∈ reverseOrders book p, 0 < o.price) →
        (∀ q, price = some q → ∀ o ∈ reverseOrders book p, o.price = q) →
        amount ≤ liquidity (reverseOrders book p) →
        ∃ est, (estimateSwapTraced book p amount price).result = .ok est ∧
          est.rest = none ∧
          est.immediate = (walk price (reverseOrders book p) amount 0).1) ∧
    (estimateSwapTraced demoBook pairAB 10 none).result = .ok ⟨5, none⟩ := by
  constructor
  · intro book p amount price h1 h2 ha hpos hmatch hliq
    refine ⟨estimateCore book p amount price, ?_, ?_, rfl⟩
    · rw [estimateSwapTraced_ok book p amount price h1 h2 ha]
    · have hskip : ∀ o ∈ reverseOrders book p, skipOrder price o = false := by
        intro o ho
        cases price with
        | none => rfl
        | some q =>
          have hq := hmatch q rfl o ho
          simp [skipOrder, hq]
      have hrem :=
        walk_rem_nonpos price (reverseOrders book p) amount 0 hskip hliq
      rw [estimateCore_eq]
      exact if_neg (not_lt.mpr hrem)
  · rw [estimateSwapTraced_ok demoBook pairAB 10 none validateHash_hashA
      validateHash_hashB (by norm_num)]
    norm_num [estimateCore, revDemo, demoBook, walk, skipOrder, jmul, jsOr]

/-- Witness for C1 at the concrete sufficient-liquidity scenario. -/
theorem estimateSwap_sufficient_liquidity_witness :
    ∃ est, (estimateSwapTraced demoBook pairAB 10 none).result = .ok est ∧
      est.rest = none ∧
      est.immediate = (walk none (reverseOrders demoBook pairAB) 10 0).1 :=
  estimateSwap_sufficient_liquidity.1 demoBook pairAB 10 none
    validateHash_hashA validateHash_hashB (by norm_num) (by decide)
    (fun q hq => Option.noConfusion hq)
    (by rw [revDemo]; norm_num [liquidity, demoBook, sumQ])

/-- Counterexample for C2: at amount 150 against the single reverse order
(price 2, quantity 100) the code returns immediate 75 (the full-fill
branch fires because 150 * (1/2) = 75 ≤ 100), not the claimed 100. -/
theorem estimateSwap_partial_fill_claim_cex :
    (estimateSwapTraced demoBook pairAB 150 none).result = .ok ⟨75, none⟩ ∧
    (75 : ℚ) ≠ 100 := by
  constructor
  · rw [estimateSwapTraced_ok demoBook pairAB 150 none validateHash_hashA
      validateHash_hashB (by norm_num)]
    norm_num [estimateCore, revDemo, demoBook, walk, skipOrder, jmul, jsOr]
  · norm_num

/-- Amended C2: at amount 150 the single reverse order fully satisfies
the remainder (150 * (1/2) = 75 ≤ 100), so the walk takes the full-fill
branch, sets the remainder to 0, and the result is immediate 75 with
`rest` absent. -/
theorem estimateSwap_amount150_full_fill :
    walk none (reverseOrders demoBook pairAB) 150 0 = (75, 0) ∧
    (estimateSwapTraced demoBook pairAB 150 none).result = .ok ⟨75, none⟩ := by
  constructor
  · rw [revDemo]
    norm_num [demoBook, walk, skipOrder]
  · rw [estimateSwapTraced_ok demoBook pairAB 150 none validateHash_hashA
      validateHash_hashB (by norm_num)]
    norm_num [estimateCore, revDemo, demoBook, walk, skipOrder, jmul, jsOr]

/-- Counterexample for C6: for the valid request (amount 10, limit price
0) over a book whose reverse side is empty but which has one
same-direction order at price 4, the code returns rest = 40 = amount *
avgPrice, not amount * price = 0: a given limit price of 0 is falsy in
`price || avgPrice` and is replaced by the average price. -/
theorem estimateSwap_zero_limit_price_rest_cex :
    reverseOrders sameDirBook pairAB = [] ∧
    (estimateSwapTraced sameDirBook pairAB 10 (some 0)).result =
      .ok ⟨0, some (.num 40)⟩ ∧
    JSNum.num 40 ≠ JSNum.num (10 * 0) := by
  refine ⟨revSameDir, ?_, by norm_num⟩
  rw [estimateSwapTraced_ok sameDirBook pairAB 10 (some 0) validateHash_hashA
    validateHash_hashB (by norm_num)]
  norm_num [estimateCore, revSameDir, walk, skipOrder, jmul, jsOr, avgPrice,
    sameDirPricesFact, sumQ]

/-- Amended C6: with an empty reverse order book `immediate` is 0; `rest`
equals amount * price for a given *nonzero* limit price (a limit price of
0 is treated as absent and the average price is used instead, see the
counterexample); with no limit price and no orders at all, the average
price is NaN and `rest` is the NaN value, not omitted and not coerced. -/
theorem estimateSwap_empty_reverse_book (book : List Order) (p : SwapPair)
    (amount : ℚ) (price : Option ℚ)
    (h1 : validateHash (.str p.«from») = true)
    (h2 : validateHash (.str p.«to») = true) (ha : 0 < amount)
    (hrev : reverseOrders book p = []) :
    ∃ est, (estimateSwapTraced book p amount price).result = .ok est ∧
      est.immediate = 0 ∧
      (∀ q, price = some q → q ≠ 0 → est.rest = some (.num (amount * q))) ∧
      (price = none → book = [] → est.rest = some .nan) := by
  refine ⟨estimateCore book p amount price,
    by rw [estimateSwapTraced_ok book p amount price h1 h2 ha], ?_, ?_, ?_⟩
  · rw [estimateCore_eq, hrev]
    rfl
  · intro q hq hq0
    subst hq
    rw [estimateCore_eq, hrev]
    simp [walk, ha, jsOr, hq0, jmul]
  · intro hp hbook
    subst hp
    subst hbook
    rw [estimateCore_eq]
    have hrev0 : reverseOrders [] p = [] := rfl
    simp [hrev0, walk, ha, jsOr, jmul, avgPrice, sameDirPrices]

/-- Witness for the amended C6 at a concrete empty book with limit
price 2. -/
theorem estimateSwap_empty_reverse_book_witness :
    ∃ est, (estimateSwapTraced [] pairAB 7 (some 2)).result = .ok est ∧
      est.immediate = 0 ∧
      (∀ q, some (2 : ℚ) = some q → q ≠ 0 → est.rest = some (.num (7 * q))) ∧
      (some (2 : ℚ) = none → ([] : List Order) = [] → est.rest = some .nan) :=
  estimateSwap_empty_reverse_book [] pairAB 7 (some 2) validateHash_hashA
    validateHash_hashB (by norm_num) rfl

/-- C10: a supplied limit price of 0 never skips any order (0 is falsy in
the skip test) while making the full-fill comparison `remaining * 0 ≤
quantity` hold for any nonnegative quantity, so the walk ends on the
first reverse order: the result is immediate = amount * (1 / firstPrice)
with rest absent, regardless of that order's quantity. -/
theorem estimateSwap_zero_limit_price_anomaly (book : List Order)
    (p : SwapPair) (amount : ℚ) (o : Order) (os : List Order)
    (h1 : validateHash (.str p.«from») = true)
    (h2 : validateHash (.str p.«to») = true) (ha : 0 < amount)
    (hrev : reverseOrders book p = o :: os) (hq : 0 ≤ o.quantity)
    (hp : o.price ≠ 0) :
    (∀ o' : Order, skipOrder (some 0) o' = false) ∧
    (estimateSwapTraced book p amount (some 0)).result =
      .ok ⟨amount * (1 / o.price), none⟩ := by
  have hsk : ∀ o' : Order, skipOrder (some 0) o' = false := by
    intro o'
    simp [skipOrder]
  refine ⟨hsk, ?_⟩
  have hw : walk (some 0) (reverseOrders book p) amount 0 =
      (amount * (1 / o.price), 0) := by
    rw [hrev, walk_cons_active (some 0) o os amount 0 (not_le.mpr ha) (hsk o)]
    have hcond : amount * ((some (0 : ℚ)).getD (1 / o.price)) ≤ o.quantity := by
      simpa using hq
    rw [if_pos hcond]
    norm_num
  rw [estimateSwapTraced_ok book p amount (some 0) h1 h2 ha,
    estimateCore_eq, hw]
  simp

/-- Witness for C10: the first reverse order has quantity 1, far below
the needed 5, yet the result is immediate = 10 * (1/2) = 5 with no
rest. -/
theorem estimateSwap_zero_limit_price_anomaly_witness :
    (∀ o' : Order, skipOrder (some 0) o' = false) ∧
    (estimateSwapTraced tinyFirstBook pairAB 10 (some 0)).result =
      .ok ⟨10 * (1 / (2 : ℚ)), none⟩ :=
  estimateSwap_zero_limit_price_anomaly tinyFirstBook pairAB 10
    ⟨orderIdT, hashB, 2, 1⟩ [⟨orderId1, hashB, 3, 50⟩] validateHash_hashA
    validateHash_hashB (by norm_num) revTinyFirst (by norm_num) (by norm_num)

/-- Counterexample for C3: with holders alice and bob at balance 1 each
and a vault entry of 6 for bob whose unlock height 5 has already passed
at chain height 10, the code still counts the expired entry (weights 1/8
and 7/8, so the draw 1/5 selects bob), while the spec's height-filtered
weight map (1/2 and 1/2) selects alice. -/
theorem selectWeightedHolder_unlock_height_cex :
    selectWeightedHolder (1 / 5) balances3 vault3 = bobAddr ∧
    selectWeightedHolderSpec (1 / 5) 10 balances3 vault3 = aliceAddr ∧
    bobAddr ≠ aliceAddr := by
  refine ⟨?_, ?_, by decide⟩
  · norm_num [selectWeightedHolder, buildWeighted, balances3, vault3, vaultStep,
      upsertAdd, sumQ, weightedRandom, weightedWalk, aliceAddr, bobAddr]
  · norm_num [selectWeightedHolderSpec, buildWeightedSpec, balances3, vault3,
      vaultStepSpec, upsertAdd, sumQ, weightedRandom, weightedWalk, aliceAddr,
      bobAddr]

/-- Amended C3: the recipient for target "token_holder" is drawn by the
weighted selector over the weight map in which every holder's weight is
(direct balance + the sum of ALL vault entries recorded for the holder,
regardless of their unlock heights) divided by the grand total of all
balances and all vault balances; no chain height is consulted. -/
theorem selectWeightedHolder_counts_all_vault_entries
    (balances : Balances) (vault : Vault) (r : ℚ) (addr : String) (b : ℚ)
    (h : balances.lookup addr = some b) :
    (buildWeighted balances vault).lookup addr =
      some ((b + vaultSumFor addr vault) / grandTotal balances vault) ∧
    selectWeightedHolder r balances vault =
      weightedRandom r (buildWeighted balances vault) := by
  constructor
  · rw [buildWeighted]
    rw [lookup_map_snd
      (fun x => x / (vault.foldl vaultStep (balances, sumQ (balances.map (·.2)))).2)]
    rw [foldl_vaultStep_lookup vault balances (sumQ (balances.map (·.2))) addr b h]
    rw [Option.map_some']
    rw [foldl_vaultStep_total vault balances (sumQ (balances.map (·.2)))]
    rfl
  · rfl

/-- Witness for the amended C3 at a concrete one-holder state with one
vault entry. -/
theorem selectWeightedHolder_counts_all_vault_entries_witness :
    (buildWeighted balW vaultW).lookup aliceAddr =
      some ((2 + vaultSumFor aliceAddr vaultW) / grandTotal balW vaultW) ∧
    selectWeightedHolder 0 balW vaultW =
      weightedRandom 0 (buildWeighted balW vaultW) :=
  selectWeightedHolder_counts_all_vault_entries balW vaultW 0 aliceAddr 2
    (by decide)
